import Mathlib

/-!
Shallow embedding of `src/app.py` (ED Note Formatter).

Text is modelled as `List Char` (Python `str` over its scalar values; the
inputs of interest are ASCII).  Python dicts are modelled as association
lists in insertion order, with assignment `dictSet` overwriting in place.
Fallible code (`re.sub` with a bad replacement template, `json.loads`)
is modelled with `Except` / `Option`.
-/

namespace EDFmt

/-- Characters removed by Python `str.strip()` (ASCII range). -/
def pyIsSpace (c : Char) : Bool :=
  c == ' ' || c == '\t' || c == '\n' || c == '\r' || c == '\x0b' || c == '\x0c'

/-- Drop trailing characters satisfying `p` (structural version of Python's
right-strip). -/
def dropTrail (p : Char → Bool) : List Char → List Char
  | [] => []
  | c :: rest =>
    match dropTrail p rest with
    | [] => if p c then [] else [c]
    | r => c :: r

/-- Python `str.strip()`: remove leading and trailing whitespace. -/
def pyStrip (s : List Char) : List Char :=
  dropTrail pyIsSpace (s.dropWhile pyIsSpace)

/-- `re.sub(r"\n+", "\n", text)`: collapse each maximal run of newlines to a
single newline.  `prev` is the previously emitted/original character. -/
def collapseNL : Option Char → List Char → List Char
  | _, [] => []
  | prev, c :: rest =>
    if c = '\n' ∧ prev = some '\n' then collapseNL (some c) rest
    else c :: collapseNL (some c) rest

/-- ASCII lower-casing, the effect of `re.IGNORECASE` on the texts involved. -/
def lcAscii (c : Char) : Char :=
  if 'A' ≤ c ∧ c ≤ 'Z' then Char.ofNat (c.toNat + 32) else c

/-- `pat` matches at the start of `s`, case-insensitively (ASCII). -/
def ciStarts : List Char → List Char → Bool
  | [], _ => true
  | _ :: _, [] => false
  | a :: as, b :: bs => (lcAscii a == lcAscii b) && ciStarts as bs

/-- Python regex `\w` on ASCII text: letters, digits, underscore. -/
def isWordChar (c : Char) : Bool := c.isAlphanum || c == '_'

def wordOpt : Option Char → Bool
  | none => false
  | some c => isWordChar c

/-- A `\b` word boundary holds between two (optional) characters iff exactly
one side is a word character. -/
def boundaryB (a b : Option Char) : Bool := wordOpt a != wordOpt b

/-! ### `parse_sections`

`parse_sections` builds one combined alternation regex out of the per-section
patterns and runs `finditer`.  Every per-section pattern in this program is an
alternation of string literals, so a section's pattern is embedded as its list
of literal alternatives, and the combined regex as the flattened ordered list
of `(section, literal)` pairs: at each position of the text, the first pair
whose literal matches (case-insensitively) wins, and scanning resumes after
the matched literal (`finditer` yields non-overlapping, leftmost matches). -/

/-- The ordered `(section, literal alternative)` pairs of the combined regex. -/
def flatAlts (pats : List (String × List (List Char))) : List (String × List Char) :=
  match pats with
  | [] => []
  | (s, ps) :: rest => ps.map (fun p => (s, p)) ++ flatAlts rest

/-- First alternative of the combined pattern matching at the head of `s`,
together with the length of the matched literal. -/
def firstAlt (alts : List (String × List Char)) (s : List Char) : Option (String × Nat) :=
  match alts with
  | [] => none
  | (sec, lit) :: rest => if ciStarts lit s then some (sec, lit.length) else firstAlt rest s

/-- `combined_pattern.finditer(text)`: the `(section, start index)` of every
match, in text order.  Fuelled structural recursion (`fuel ≥ length + 1`
always suffices since every step consumes at least one character). -/
def findMatchesF (alts : List (String × List Char)) : Nat → Nat → List Char → List (String × Nat)
  | 0, _, _ => []
  | _ + 1, _, [] => []
  | fuel + 1, pos, c :: rest =>
    match firstAlt alts (c :: rest) with
    | some (sec, len) => (sec, pos) :: findMatchesF alts fuel (pos + len) ((c :: rest).drop len)
    | none => findMatchesF alts fuel (pos + 1) rest

def findMatches (pats : List (String × List (List Char))) (text : List Char) : List (String × Nat) :=
  findMatchesF (flatAlts pats) (text.length + 1) 0 text

/-- `section_patterns[section]`. -/
def patsFor (pats : List (String × List (List Char))) (s : String) : List (List Char) :=
  match pats with
  | [] => []
  | (s', ps) :: rest => if s' = s then ps else patsFor rest s

/-- `header_regex.match(section_content)` followed by removal of the header:
the first alternative of the section's own pattern that matches at position 0
is stripped and the remainder re-stripped; if none matches the content is kept
as is. -/
def stripHdr (alts : List (List Char)) (c : List Char) : List Char :=
  match alts with
  | [] => c
  | a :: rest => if ciStarts a c then pyStrip (c.drop a.length) else stripHdr rest c

/-- The end index of the block opened by a match: the start of the next match,
or the length of the text if there is none. -/
def nextEnd (text : List Char) : List (String × Nat) → Nat
  | (_, st2) :: _ => st2
  | [] => text.length

/-- The per-match `(section, content)` pairs: each match's block runs from its
start to the next match's start (or end of text), is stripped, and has its
header removed. -/
def contentsOf (text : List Char) (pats : List (String × List (List Char))) :
    List (String × Nat) → List (String × List Char)
  | [] => []
  | (sec, st) :: rest =>
    (sec, stripHdr (patsFor pats sec)
        (pyStrip ((text.drop st).take (nextEnd text rest - st)))) ::
      contentsOf text pats rest

def matchBlocks (text : List Char) (pats : List (String × List (List Char))) :
    List (String × List Char) :=
  contentsOf text pats (findMatches pats text)

/-- Python dict membership test on the association-list model. -/
def containsKey (d : List (String × α)) (k : String) : Bool :=
  d.any (fun p => p.1 = k)

/-- Python dict assignment `d[k] = v`: overwrite in place if the key exists,
else append. -/
def dictSet (d : List (String × α)) (k : String) (v : α) : List (String × α) :=
  if containsKey d k then d.map (fun p => if p.1 = k then (k, v) else p)
  else d ++ [(k, v)]

/-- Python dict lookup `d[k]` (specified as an `Option`). -/
def lookupD (k : String) : List (String × α) → Option α
  | [] => none
  | p :: rest => if p.1 = k then some p.2 else lookupD k rest

/-- The final loop of `parse_sections`: every configured section absent from
the dict is set to `"[Missing Data]"`. -/
def fillMissing (pats : List (String × List (List Char))) (d : List (String × List Char)) :
    List (String × List Char) :=
  pats.foldl (fun d p => if containsKey d p.1 then d else dictSet d p.1 "[Missing Data]".data) d

/-- `parse_sections(text, section_patterns)` from `src/app.py`. -/
def parse_sections (text : List Char) (pats : List (String × List (List Char))) :
    List (String × List Char) :=
  fillMissing pats ((matchBlocks text pats).foldl (fun d p => dictSet d p.1 p.2) [])

/-- The fixed `section_patterns` dict of `format_ed_data`. -/
def sectionPatterns : List (String × List (List Char)) :=
  [ ("Chief Complaint", ["Chief Complaint:".data, "Reason for Visit:".data, "CC:".data])
  , ("HPI", ["History of Present Illness:".data, "HPI:".data])
  , ("ROS", ["Review of Systems:".data, "ROS:".data])
  , ("ED Vitals", ["Triage Vitals:".data, "Vital Signs:".data, "VS:".data])
  , ("Physical Exam", ["Physical Exam:".data, "PE:".data, "Exam:".data])
  , ("Labs & Imaging", ["Labs:".data, "Laboratory Results:".data, "Tests:".data,
      "Diagnostics:".data, "Imaging:".data, "Radiology:".data])
  , ("MDM", ["Medical Decision Making:".data, "MDM:".data, "ED Course:".data,
      "Assessment and Plan:".data])
  , ("Prior to Admission", ["Prior to Admission:".data, "Past Medical History:".data,
      "PMH:".data, "Previous Hospitalizations:".data]) ]

/-! ### `apply_abbreviations`

`apply_abbreviations` runs, for each section body and each `(term, abbr)`
pair in dict order, `re.sub(rf"\b{re.escape(term)}\b", abbr, content,
flags=re.IGNORECASE)`.  The pattern is a literal (escaped) between word
boundaries and has no capture groups.  `re.sub` first parses the REPLACEMENT
string as a template; a bad escape or a reference to a nonexistent group
raises `re.error` — modelled with `Except`.  A template is a list of items:
literal characters, or a reference to group 0 (the whole match, the one group
that always exists). -/

inductive TItem where
  | lit : Char → TItem
  | grp0 : TItem
  deriving DecidableEq, Repr

def isOctC (c : Char) : Bool := '0' ≤ c && c ≤ '7'

def octVal (c : Char) : Nat := c.toNat - '0'.toNat

/-- Parse a `re.sub` replacement template against a zero-group pattern
(CPython `sre_parse.parse_template` restricted to ASCII).  `none` models a
raised `re.error`: bad escape, or a group reference other than group 0. -/
def parseTemplateF : Nat → List Char → Option (List TItem)
  | 0, _ => none
  | _ + 1, [] => some []
  | fuel + 1, c :: rest =>
    if c ≠ '\\' then (TItem.lit c :: ·) <$> parseTemplateF fuel rest
    else match rest with
    | [] => none
    | e :: rest2 =>
      if e = '\\' then (TItem.lit '\\' :: ·) <$> parseTemplateF fuel rest2
      else if e = 'g' then
        -- \g<number>: only group 0 exists; \g followed by anything else errors
        match rest2 with
        | '<' :: rest3 =>
          let ds := rest3.takeWhile Char.isDigit
          if ds ≠ [] ∧ ds.all (fun c => c == '0') ∧
              (rest3.drop ds.length).head? = some '>' then
            (TItem.grp0 :: ·) <$> parseTemplateF fuel (rest3.drop (ds.length + 1))
          else none
        | _ => none
      else if e = '0' then
        -- \0 plus up to two octal digits: an octal character escape
        let os := (rest2.takeWhile isOctC).take 2
        (TItem.lit (Char.ofNat (os.foldl (fun a c => 8 * a + octVal c) 0)) :: ·) <$>
          parseTemplateF fuel (rest2.drop os.length)
      else if e.isDigit then
        -- \ooo with three octal digits is an octal escape; any other \1..\99
        -- is a group reference, invalid for a zero-group pattern
        match rest2 with
        | a :: b :: rest3 =>
          if isOctC e && isOctC a && isOctC b then
            (TItem.lit (Char.ofNat (64 * octVal e + 8 * octVal a + octVal b)) :: ·) <$>
              parseTemplateF fuel rest3
          else none
        | _ => none
      else if e = 'a' then (TItem.lit '\x07' :: ·) <$> parseTemplateF fuel rest2
      else if e = 'b' then (TItem.lit '\x08' :: ·) <$> parseTemplateF fuel rest2
      else if e = 'f' then (TItem.lit '\x0c' :: ·) <$> parseTemplateF fuel rest2
      else if e = 'n' then (TItem.lit '\n' :: ·) <$> parseTemplateF fuel rest2
      else if e = 'r' then (TItem.lit '\r' :: ·) <$> parseTemplateF fuel rest2
      else if e = 't' then (TItem.lit '\t' :: ·) <$> parseTemplateF fuel rest2
      else if e = 'v' then (TItem.lit '\x0b' :: ·) <$> parseTemplateF fuel rest2
      else if e.isAlpha then none
      else (fun t => TItem.lit '\\' :: TItem.lit e :: t) <$> parseTemplateF fuel rest2

def parseTemplate (repl : List Char) : Option (List TItem) :=
  parseTemplateF (repl.length + 1) repl

/-- Render a parsed template for a match whose matched text is `matched`. -/
def renderT (matched : List Char) : List TItem → List Char
  | [] => []
  | TItem.lit c :: rest => c :: renderT matched rest
  | TItem.grp0 :: rest => matched ++ renderT matched rest

/-- Does `\b term \b` match at the start of `s`, where `prev` is the original
character just before this position?  Case-insensitive literal match of
`term`; a word boundary on each side.  For the empty term, `\b\b` is a single
boundary at this position. -/
def wordMatchAt (prev : Option Char) (term : List Char) (s : List Char) : Bool :=
  ciStarts term s &&
  (match term with
   | [] => boundaryB prev s.head?
   | t :: ts =>
     boundaryB prev (some t) &&
     boundaryB (some ((t :: ts).getLastD t)) ((s.drop (t :: ts).length).head?))

/-- One `re.sub(r"\b term \b", template, s)` pass: scan left to right, replace
each non-overlapping match, resume after the matched original text (which is
not rescanned).  A zero-width match (empty term) also consumes the next
character after replacing.  Structural on fuel; with fuel exhausted the rest
of the text is returned unchanged (never reached with `fuel ≥ length + 1`). -/
def subWWF (term : List Char) (tmpl : List TItem) : Nat → Option Char → List Char → List Char
  | 0, _, s => s
  | _ + 1, prev, [] => if wordMatchAt prev term [] then renderT [] tmpl else []
  | fuel + 1, prev, c :: rest =>
    if wordMatchAt prev term (c :: rest) then
      match term with
      | [] => renderT [] tmpl ++ c :: subWWF term tmpl fuel (some c) rest
      | _ :: _ =>
        let matched := (c :: rest).take term.length
        renderT matched tmpl ++
          subWWF term tmpl fuel matched.getLast? ((c :: rest).drop term.length)
    else c :: subWWF term tmpl fuel (some c) rest

def subWW (term : List Char) (tmpl : List TItem) (s : List Char) : List Char :=
  subWWF term tmpl (s.length + 1) none s

/-- The inner loop of `apply_abbreviations` on one section body: each
`(term, abbr)` in dict order; parsing a bad replacement template raises. -/
def applyContent (abbrs : List (List Char × List Char)) (c : List Char) :
    Except String (List Char) :=
  match abbrs with
  | [] => .ok c
  | (term, repl) :: rest =>
    match parseTemplate repl with
    | none => .error "re.error: bad escape or invalid group reference in replacement"
    | some tmpl => applyContent rest (subWW term tmpl c)

/-- `apply_abbreviations(structured_data, abbreviations)` from `src/app.py`:
rewrite every section body in place (keys and order untouched). -/
def apply_abbreviations (data : List (String × List Char))
    (abbrs : List (List Char × List Char)) : Except String (List (String × List Char)) :=
  match data with
  | [] => .ok []
  | (s, c) :: rest =>
    match applyContent abbrs c with
    | .error e => .error e
    | .ok c' =>
      match apply_abbreviations rest abbrs with
      | .error e => .error e
      | .ok r => .ok ((s, c') :: r)

/-- Does `\b term \b` match anywhere in `s` (given the character before `s`)?
Independent specification of a whole-word case-insensitive occurrence. -/
def occAux (term : List Char) : Option Char → List Char → Bool
  | prev, [] => wordMatchAt prev term []
  | prev, c :: rest => wordMatchAt prev term (c :: rest) || occAux term (some c) rest

/-- `s` contains a whole-word, case-insensitive occurrence of `term`. -/
def hasWWOcc (term : List Char) (s : List Char) : Bool := occAux term none s

/-- The `default_abbreviations` dict of `src/app.py`, in source order. -/
def default_abbreviations : List (List Char × List Char) :=
  [ ("myocardial infarction".data, "MI".data)
  , ("hypertension".data, "HTN".data)
  , ("diabetes mellitus".data, "DM".data)
  , ("chronic obstructive pulmonary disease".data, "COPD".data)
  , ("cerebrovascular accident".data, "CVA".data)
  , ("acute kidney injury".data, "AKI".data)
  , ("deep vein thrombosis".data, "DVT".data)
  , ("pulmonary embolism".data, "PE".data)
  , ("chronic kidney disease".data, "CKD".data)
  , ("gastroesophageal reflux disease".data, "GERD".data)
  , ("atrial fibrillation".data, "AF".data)
  , ("congestive heart failure".data, "CHF".data)
  , ("coronary artery disease".data, "CAD".data) ]

/-- `format_ed_data(text, abbreviations)` from `src/app.py`: empty or
all-whitespace input short-circuits to an error dict; otherwise the stripped
text has newline runs collapsed, is parsed into sections with the fixed
pattern table, and abbreviations are applied. -/
def format_ed_data (text : List Char) (abbrs : List (List Char × List Char)) :
    Except String (List (String × List Char)) :=
  if pyStrip text = [] then .ok [("Error", "No data provided".data)]
  else
    apply_abbreviations
      (parse_sections (collapseNL none (pyStrip text)) sectionPatterns) abbrs

/-! ### `load_abbreviations`

`load_abbreviations` decodes the uploaded bytes and calls `json.loads`; any
exception falls back to the default table.  A JSON value is modelled with
`JVal` (numbers kept as their literal text; this development never compares
numeric values).  The parser follows the `json.loads` grammar on ASCII input,
including the Python extensions `NaN` / `Infinity` / `-Infinity`. -/

inductive JVal where
  | jnull : JVal
  | jbool : Bool → JVal
  | jnum : List Char → JVal
  | jstr : List Char → JVal
  | jarr : List JVal → JVal
  | jobj : List (List Char × JVal) → JVal

def jsonWs (c : Char) : Bool := c == ' ' || c == '\t' || c == '\n' || c == '\r'

def skipWs (s : List Char) : List Char := s.dropWhile jsonWs

def isHexC (c : Char) : Bool :=
  c.isDigit || ('a' ≤ c && c ≤ 'f') || ('A' ≤ c && c ≤ 'F')

def hexVal (c : Char) : Nat :=
  if c.isDigit then c.toNat - '0'.toNat
  else if 'a' ≤ c && c ≤ 'f' then c.toNat - 'a'.toNat + 10
  else c.toNat - 'A'.toNat + 10

/-- JSON string body after the opening quote: the decoded characters and the
rest of the input after the closing quote.  Strict mode: unescaped control
characters and unknown escapes are errors. -/
def jStrBody : List Char → Option (List Char × List Char)
  | [] => none
  | '"' :: rest => some ([], rest)
  | '\\' :: e :: rest =>
    if e = '"' then (fun p => ('"' :: p.1, p.2)) <$> jStrBody rest
    else if e = '\\' then (fun p => ('\\' :: p.1, p.2)) <$> jStrBody rest
    else if e = '/' then (fun p => ('/' :: p.1, p.2)) <$> jStrBody rest
    else if e = 'b' then (fun p => ('\x08' :: p.1, p.2)) <$> jStrBody rest
    else if e = 'f' then (fun p => ('\x0c' :: p.1, p.2)) <$> jStrBody rest
    else if e = 'n' then (fun p => ('\n' :: p.1, p.2)) <$> jStrBody rest
    else if e = 'r' then (fun p => ('\r' :: p.1, p.2)) <$> jStrBody rest
    else if e = 't' then (fun p => ('\t' :: p.1, p.2)) <$> jStrBody rest
    else if e = 'u' then
      match rest with
      | a :: b :: c :: d :: rest2 =>
        if isHexC a && isHexC b && isHexC c && isHexC d then
          (fun p => (Char.ofNat
            (4096 * hexVal a + 256 * hexVal b + 16 * hexVal c + hexVal d) :: p.1, p.2)) <$>
            jStrBody rest2
        else none
      | _ => none
    else none
  | c :: rest =>
    if c.toNat < 32 then none else (fun p => (c :: p.1, p.2)) <$> jStrBody rest

/-- JSON number starting at `s` (first character `-` or a digit): its literal
text and the rest.  Grammar: `-? (0 | [1-9][0-9]*) (. [0-9]+)? ([eE][+-]?[0-9]+)?`. -/
def jNum (s : List Char) : Option (List Char × List Char) :=
  let (sgn, s1) := match s with
    | '-' :: r => (['-'], r)
    | _ => (([] : List Char), s)
  match s1 with
  | c :: r =>
    if ¬ c.isDigit then none
    else
      let (ip, r1) :=
        if c = '0' then ([c], r)
        else
          let ds := r.takeWhile Char.isDigit
          (c :: ds, r.drop ds.length)
      -- an invalid fraction or exponent is simply not consumed (the caller
      -- then rejects the leftover character, as Python's NUMBER_RE does)
      let (fp, r2) := match r1 with
        | '.' :: r' =>
          let ds := r'.takeWhile Char.isDigit
          if ds = [] then (([] : List Char), r1) else ('.' :: ds, r'.drop ds.length)
        | _ => ([], r1)
      let (ep, r3) := match r2 with
        | e :: r' =>
          if e = 'e' ∨ e = 'E' then
            let (sg, r'') := match r' with
              | '+' :: r2' => (['+'], r2')
              | '-' :: r2' => (['-'], r2')
              | _ => (([] : List Char), r')
            let ds := r''.takeWhile Char.isDigit
            if ds = [] then (([] : List Char), r2)
            else (e :: sg ++ ds, r''.drop ds.length)
          else ([], r2)
        | [] => ([], r2)
      some (sgn ++ ip ++ fp ++ ep, r3)
  | [] => none

/-- Items after the first element of a JSON array: `, value`* then `]`. -/
def jArrTail (pv : List Char → Option (JVal × List Char)) :
    Nat → List Char → Option (List JVal × List Char)
  | 0, _ => none
  | fuel + 1, s =>
    match skipWs s with
    | ']' :: r => some ([], r)
    | ',' :: r =>
      match pv (skipWs r) with
      | none => none
      | some (v, r2) =>
        (fun p => (v :: p.1, p.2)) <$> jArrTail pv fuel r2
    | _ => none

/-- One `"key" : value` member of a JSON object. -/
def jMember (pv : List Char → Option (JVal × List Char)) (s : List Char) :
    Option ((List Char × JVal) × List Char) :=
  match skipWs s with
  | '"' :: r =>
    match jStrBody r with
    | none => none
    | some (k, r2) =>
      match skipWs r2 with
      | ':' :: r3 =>
        match pv (skipWs r3) with
        | none => none
        | some (v, r4) => some ((k, v), r4)
      | _ => none
  | _ => none

/-- Members after the first member of a JSON object: `, member`* then a brace. -/
def jObjTail (pv : List Char → Option (JVal × List Char)) :
    Nat → List Char → Option (List (List Char × JVal) × List Char)
  | 0, _ => none
  | fuel + 1, s =>
    match skipWs s with
    | '\x7d' :: r => some ([], r)
    | ',' :: r =>
      match jMember pv r with
      | none => none
      | some (m, r2) =>
        (fun p => (m :: p.1, p.2)) <$> jObjTail pv fuel r2
    | _ => none

/-- JSON value parser (fuelled).  Returns the value and the unconsumed rest. -/
def jValF : Nat → List Char → Option (JVal × List Char)
  | 0, _ => none
  | fuel + 1, s =>
    match s with
    | [] => none
    | '"' :: r => (fun p => (JVal.jstr p.1, p.2)) <$> jStrBody r
    | '[' :: r =>
      match skipWs r with
      | ']' :: r2 => some (JVal.jarr [], r2)
      | r2 =>
        match jValF fuel r2 with
        | none => none
        | some (v, r3) =>
          (fun p => (JVal.jarr (v :: p.1), p.2)) <$> jArrTail (jValF fuel) fuel r3
    | '\x7b' :: r =>
      match skipWs r with
      | '\x7d' :: r2 => some (JVal.jobj [], r2)
      | _ =>
        match jMember (jValF fuel) r with
        | none => none
        | some (m, r3) =>
          (fun p => (JVal.jobj (m :: p.1), p.2)) <$> jObjTail (jValF fuel) fuel r3
    | 't' :: 'r' :: 'u' :: 'e' :: r => some (JVal.jbool true, r)
    | 'f' :: 'a' :: 'l' :: 's' :: 'e' :: r => some (JVal.jbool false, r)
    | 'n' :: 'u' :: 'l' :: 'l' :: r => some (JVal.jnull, r)
    | 'N' :: 'a' :: 'N' :: r => some (JVal.jnum "NaN".data, r)
    | 'I' :: 'n' :: 'f' :: 'i' :: 'n' :: 'i' :: 't' :: 'y' :: r =>
      some (JVal.jnum "Infinity".data, r)
    | '-' :: 'I' :: 'n' :: 'f' :: 'i' :: 'n' :: 'i' :: 't' :: 'y' :: r =>
      some (JVal.jnum "-Infinity".data, r)
    | c :: _ =>
      if c = '-' ∨ c.isDigit then (fun p => (JVal.jnum p.1, p.2)) <$> jNum s
      else none

/-- `json.loads` on decoded text: one value, surrounding whitespace only. -/
def jsonLoads (s : List Char) : Option JVal :=
  match jValF (s.length + 2) (skipWs s) with
  | some (v, rest) => if skipWs rest = [] then some v else none
  | none => none

/-- `load_abbreviations(uploaded_file, default_abbreviations)` from
`src/app.py`: the decoded upload content is given to `json.loads`; ANY
exception (malformed JSON, undecodable bytes) yields the default table;
a successfully decoded value of any shape is returned as is. -/
def load_abbreviations (content : List Char) (default : JVal) : JVal :=
  match jsonLoads content with
  | some v => v
  | none => default

/-- The `default_abbreviations` dict as the JSON value `load_abbreviations`
falls back to. -/
def defaultAbbrevJ : JVal :=
  JVal.jobj (default_abbreviations.map (fun p => (p.1, JVal.jstr p.2)))

/-! ### Dictionary lemmas -/

/-- The value of the LAST entry with key `k` in a list of assignments. -/
def lastVal (k : String) : List (String × α) → Option α
  | [] => none
  | p :: rest =>
    match lastVal k rest with
    | some v => some v
    | none => if p.1 = k then some p.2 else none

theorem lookupD_eq_none_iff (k : String) (d : List (String × α)) :
    lookupD k d = none ↔ containsKey d k = false := by
  induction d with
  | nil => simp [lookupD, containsKey]
  | cons p rest ih =>
    obtain ⟨k', v⟩ := p
    by_cases h : k' = k <;> simp [lookupD, containsKey, h] at ih ⊢
    exact ih

theorem lookupD_mapSet (k k' : String) (v : α) (d : List (String × α)) :
    lookupD k (d.map (fun p => if p.1 = k' then (k', v) else p)) =
      if k' = k then (if containsKey d k then some v else none)
      else lookupD k d := by
  induction d with
  | nil => simp [lookupD, containsKey]
  | cons p rest ih =>
    obtain ⟨k0, v0⟩ := p
    simp only [List.map_cons]
    by_cases h0 : k0 = k'
    · subst h0
      by_cases hkk : k0 = k
      · subst hkk
        simp [lookupD, containsKey, ih]
      · simp [lookupD, containsKey, hkk, ih]
    · by_cases hk : k0 = k
      · subst hk
        have hkk : ¬ k' = k0 := fun h => h0 h.symm
        simp [lookupD, containsKey, h0, hkk, ih]
      · by_cases hkk : k' = k
        · subst hkk
          simp [lookupD, containsKey, h0, hk, ih]
          rw [decide_eq_false hk, Bool.false_or]
        · simp [lookupD, containsKey, h0, hk, hkk, ih]

theorem lookupD_append_single (k k' : String) (v : α) (d : List (String × α)) :
    lookupD k (d ++ [(k', v)]) =
      match lookupD k d with
      | some v0 => some v0
      | none => if k' = k then some v else none := by
  induction d with
  | nil => simp [lookupD]
  | cons p rest ih =>
    obtain ⟨k0, v0⟩ := p
    by_cases h0 : k0 = k <;> simp [lookupD, h0, ih]

theorem lookupD_dictSet (k k' : String) (v : α) (d : List (String × α)) :
    lookupD k (dictSet d k' v) = if k' = k then some v else lookupD k d := by
  unfold dictSet
  by_cases hc : containsKey d k' = true
  · rw [if_pos hc, lookupD_mapSet]
    by_cases hkk : k' = k
    · subst hkk; simp [hc]
    · simp [hkk]
  · rw [if_neg hc, lookupD_append_single]
    by_cases hkk : k' = k
    · subst hkk
      rw [(lookupD_eq_none_iff k' d).2 (by simpa using hc)]
    · cases h : lookupD k d <;> simp [hkk]

theorem containsKey_mapSet (k k' : String) (v : α) (d : List (String × α)) :
    containsKey (d.map (fun p => if p.1 = k' then (k', v) else p)) k =
      containsKey d k := by
  induction d with
  | nil => simp [containsKey]
  | cons p rest ih =>
    obtain ⟨k0, v0⟩ := p
    by_cases h0 : k0 = k' <;> simp_all [containsKey]

theorem containsKey_dictSet (k k' : String) (v : α) (d : List (String × α)) :
    containsKey (dictSet d k' v) k = (containsKey d k || decide (k' = k)) := by
  unfold dictSet
  by_cases hc : containsKey d k' = true
  · rw [if_pos hc, containsKey_mapSet]
    by_cases hkk : k' = k
    · subst hkk; simp [hc]
    · simp [hkk]
  · rw [if_neg hc]
    by_cases hkk : k' = k <;> simp [containsKey, List.any_append, hkk]

theorem mem_dictSet (p : String × α) (d : List (String × α)) (k : String) (v : α)
    (h : p ∈ dictSet d k v) : p ∈ d ∨ p = (k, v) := by
  unfold dictSet at h
  by_cases hc : containsKey d k = true
  · simp only [hc, if_true, List.mem_map] at h
    obtain ⟨q, hq, hqe⟩ := h
    by_cases h0 : q.1 = k
    · right; rw [← hqe]; simp [h0]
    · left; rw [← hqe]; simpa [h0] using hq
  · simp only [hc, Bool.false_eq_true, if_false, List.mem_append, List.mem_singleton] at h
    exact h

theorem lookupD_foldl_dictSet (k : String) (cs : List (String × α)) :
    ∀ d0 : List (String × α),
      lookupD k (cs.foldl (fun d p => dictSet d p.1 p.2) d0) =
        match lastVal k cs with
        | some v => some v
        | none => lookupD k d0 := by
  induction cs with
  | nil => intro d0; simp [lastVal]
  | cons p rest ih =>
    intro d0
    obtain ⟨s, c⟩ := p
    simp only [List.foldl_cons, ih (dictSet d0 s c), lastVal, lookupD_dictSet]
    cases hlv : lastVal k rest with
    | some v => simp
    | none =>
      by_cases hs : s = k <;> simp [hs]

theorem containsKey_foldl_dictSet (k : String) (cs : List (String × α)) :
    ∀ d0 : List (String × α),
      containsKey (cs.foldl (fun d p => dictSet d p.1 p.2) d0) k =
        (cs.any (fun p => p.1 = k) || containsKey d0 k) := by
  induction cs with
  | nil => intro d0; simp
  | cons p rest ih =>
    intro d0
    simp only [List.foldl_cons, ih (dictSet d0 p.1 p.2), containsKey_dictSet, List.any_cons]
    cases h1 : containsKey d0 k <;> cases h2 : decide (p.1 = k) <;>
      cases h3 : rest.any (fun p => p.1 = k) <;> simp

theorem mem_foldl_dictSet (p : String × α) (cs : List (String × α)) :
    ∀ d0 : List (String × α),
      p ∈ cs.foldl (fun d q => dictSet d q.1 q.2) d0 → p ∈ d0 ∨ p ∈ cs := by
  induction cs with
  | nil => intro d0 h; exact Or.inl h
  | cons q rest ih =>
    intro d0 h
    rcases ih (dictSet d0 q.1 q.2) h with h1 | h1
    · rcases mem_dictSet p d0 q.1 q.2 h1 with h2 | h2
      · exact Or.inl h2
      · right; rw [h2, Prod.mk.eta]; exact List.mem_cons_self _ _
    · right; exact List.mem_cons_of_mem _ h1

theorem fillMissing_nil (d : List (String × List Char)) : fillMissing [] d = d := rfl

theorem fillMissing_cons (p : String × List (List Char))
    (rest : List (String × List (List Char))) (d : List (String × List Char)) :
    fillMissing (p :: rest) d =
      fillMissing rest
        (if containsKey d p.1 then d else dictSet d p.1 "[Missing Data]".data) := rfl

theorem containsKey_fillMissing (k : String) (pats : List (String × List (List Char))) :
    ∀ d : List (String × List Char),
      containsKey (fillMissing pats d) k =
        (containsKey d k || pats.any (fun p => p.1 = k)) := by
  induction pats with
  | nil => intro d; simp [fillMissing_nil]
  | cons p rest ih =>
    intro d
    rw [fillMissing_cons]
    by_cases hc : containsKey d p.1 = true
    · rw [if_pos hc, ih d, List.any_cons]
      by_cases hk : p.1 = k
      · rw [← hk]; simp [hc]
      · simp [hk]
    · rw [if_neg hc, ih _, containsKey_dictSet, List.any_cons]
      cases h1 : containsKey d k <;> cases h2 : decide (p.1 = k) <;>
        cases h3 : rest.any (fun p => p.1 = k) <;> simp

theorem lookupD_fillMissing_present (k : String) (pats : List (String × List (List Char)))
    (d : List (String × List Char)) (h : containsKey d k = true) :
    lookupD k (fillMissing pats d) = lookupD k d := by
  induction pats generalizing d with
  | nil => simp [fillMissing_nil]
  | cons p rest ih =>
    rw [fillMissing_cons]
    by_cases hc : containsKey d p.1 = true
    · rw [if_pos hc]; exact ih d h
    · rw [if_neg hc]
      have hne : p.1 ≠ k := fun he => hc (he ▸ h)
      rw [ih _ (by rw [containsKey_dictSet]; simp [h]), lookupD_dictSet, if_neg hne]

theorem lookupD_fillMissing_absent (k : String) (pats : List (String × List (List Char)))
    (d : List (String × List Char)) (h : containsKey d k = false)
    (hmem : pats.any (fun p => p.1 = k) = true) :
    lookupD k (fillMissing pats d) = some "[Missing Data]".data := by
  induction pats generalizing d with
  | nil => simp at hmem
  | cons p rest ih =>
    rw [fillMissing_cons]
    by_cases hp : p.1 = k
    · have hc : containsKey d p.1 = false := hp ▸ h
      rw [if_neg (by simp [hc])]
      rw [lookupD_fillMissing_present k rest _
        (by rw [containsKey_dictSet]; simp [hp])]
      rw [lookupD_dictSet, if_pos hp]
    · have hmem' : rest.any (fun p => p.1 = k) = true := by
        simpa [List.any_cons, hp] using hmem
      by_cases hc : containsKey d p.1 = true
      · rw [if_pos hc]; exact ih d h hmem'
      · rw [if_neg hc]
        exact ih _ (by rw [containsKey_dictSet]; simp [h, hp]) hmem'

theorem mem_fillMissing (p : String × List Char) (pats : List (String × List (List Char))) :
    ∀ d : List (String × List Char),
      p ∈ fillMissing pats d → p ∈ d ∨ p.2 = "[Missing Data]".data := by
  induction pats with
  | nil => intro d h; exact Or.inl h
  | cons q rest ih =>
    intro d h
    rw [fillMissing_cons] at h
    by_cases hc : containsKey d q.1 = true
    · rw [if_pos hc] at h; exact ih _ h
    · rw [if_neg hc] at h
      rcases ih _ h with h1 | h1
      · rcases mem_dictSet p d q.1 _ h1 with h2 | h2
        · exact Or.inl h2
        · right; rw [h2]
      · exact Or.inr h1

/-! ### Parse-side lemmas -/

theorem containsKey_of_lookupD (k : String) (d : List (String × α)) (v : α)
    (h : lookupD k d = some v) : containsKey d k = true := by
  by_cases hc : containsKey d k = true
  · exact hc
  · rw [(lookupD_eq_none_iff k d).2 (by simpa using hc)] at h
    exact absurd h (by simp)

theorem firstAlt_sec (alts : List (String × List Char)) (s : List Char)
    (sec : String) (len : Nat) (h : firstAlt alts s = some (sec, len)) :
    ∃ l, (sec, l) ∈ alts := by
  induction alts with
  | nil => simp [firstAlt] at h
  | cons q rest ih =>
    obtain ⟨s0, lit⟩ := q
    by_cases hc : ciStarts lit s = true
    · simp [firstAlt, hc] at h
      exact ⟨lit, by rw [← h.1]; exact List.mem_cons_self _ _⟩
    · simp [firstAlt, hc] at h
      obtain ⟨l, hl⟩ := ih h
      exact ⟨l, List.mem_cons_of_mem _ hl⟩

theorem findMatchesF_sec (alts : List (String × List Char)) :
    ∀ (fuel pos : Nat) (t : List Char) (sec : String) (st : Nat),
      (sec, st) ∈ findMatchesF alts fuel pos t → ∃ l, (sec, l) ∈ alts := by
  intro fuel
  induction fuel with
  | zero => intro pos t sec st h; simp [findMatchesF] at h
  | succ fuel ih =>
    intro pos t sec st h
    match t with
    | [] => simp [findMatchesF] at h
    | c :: rest =>
      rw [findMatchesF] at h
      cases hfa : firstAlt alts (c :: rest) with
      | some pr =>
        obtain ⟨sec0, len⟩ := pr
        rw [hfa] at h
        simp only [List.mem_cons] at h
        rcases h with h | h
        · have hs : sec = sec0 := congrArg Prod.fst h
          rw [hs]
          exact firstAlt_sec alts _ sec0 len hfa
        · exact ih _ _ _ _ h
      | none =>
        rw [hfa] at h
        exact ih _ _ _ _ h

theorem flatAlts_sec (pats : List (String × List (List Char))) (sec : String) (l : List Char)
    (h : (sec, l) ∈ flatAlts pats) : (pats.any fun p => p.1 = sec) = true := by
  induction pats with
  | nil => simp [flatAlts] at h
  | cons q rest ih =>
    obtain ⟨s0, ps⟩ := q
    simp only [flatAlts, List.mem_append] at h
    rcases h with h | h
    · simp only [List.mem_map] at h
      obtain ⟨x, _, he⟩ := h
      have hs : s0 = sec := congrArg Prod.fst he
      simp [List.any_cons, hs]
    · simp [List.any_cons, ih h]

theorem contentsOf_sec (text : List Char) (pats : List (String × List (List Char)))
    (ms : List (String × Nat)) (sec : String) (b : List Char)
    (h : (sec, b) ∈ contentsOf text pats ms) : ∃ st, (sec, st) ∈ ms := by
  induction ms with
  | nil => simp [contentsOf] at h
  | cons m rest ih =>
    obtain ⟨s0, st0⟩ := m
    simp only [contentsOf, List.mem_cons] at h
    rcases h with h | h
    · have hs : sec = s0 := congrArg Prod.fst h
      exact ⟨st0, by rw [hs]; exact List.mem_cons_self _ _⟩
    · obtain ⟨st, hst⟩ := ih h
      exact ⟨st, List.mem_cons_of_mem _ hst⟩

theorem matchBlocks_sec (text : List Char) (pats : List (String × List (List Char)))
    (sec : String) (b : List Char) (h : (sec, b) ∈ matchBlocks text pats) :
    (pats.any fun p => p.1 = sec) = true := by
  obtain ⟨st, hst⟩ := contentsOf_sec text pats _ sec b h
  obtain ⟨l, hl⟩ := findMatchesF_sec (flatAlts pats) _ _ _ sec st hst
  exact flatAlts_sec pats sec l hl

theorem parse_sections_key (text : List Char) (pats : List (String × List (List Char)))
    (k : String) (h : containsKey (parse_sections text pats) k = true) :
    (pats.any fun p => p.1 = k) = true := by
  unfold parse_sections at h
  rw [containsKey_fillMissing, Bool.or_eq_true] at h
  rcases h with h | h
  · rw [containsKey_foldl_dictSet, Bool.or_eq_true] at h
    rcases h with h | h
    · rw [List.any_eq_true] at h
      obtain ⟨p, hp, hpk⟩ := h
      have : ((p.1, p.2) : String × List Char) ∈ matchBlocks text pats := by
        rw [Prod.mk.eta]; exact hp
      have hk : p.1 = k := by simpa using hpk
      exact hk ▸ matchBlocks_sec text pats p.1 p.2 this
    · simp [containsKey] at h
  · exact h

theorem parse_sections_lookup_none (text : List Char)
    (pats : List (String × List (List Char))) (k : String)
    (h : (pats.any fun p => p.1 = k) = false) :
    lookupD k (parse_sections text pats) = none := by
  rw [lookupD_eq_none_iff]
  by_cases hc : containsKey (parse_sections text pats) k = true
  · exact absurd (parse_sections_key text pats k hc) (by simp [h])
  · simpa using hc

theorem parse_sections_no_match (text : List Char)
    (pats : List (String × List (List Char))) (k : String)
    (hnm : findMatches pats text = [])
    (hk : (pats.any fun p => p.1 = k) = true) :
    lookupD k (parse_sections text pats) = some "[Missing Data]".data := by
  unfold parse_sections matchBlocks
  rw [hnm]
  exact lookupD_fillMissing_absent k pats [] (by simp [containsKey]) hk

theorem parse_sections_lastVal (text : List Char)
    (pats : List (String × List (List Char))) (s : String) (c : List Char)
    (h : lastVal s (matchBlocks text pats) = some c) :
    lookupD s (parse_sections text pats) = some c := by
  unfold parse_sections
  have h1 : lookupD s ((matchBlocks text pats).foldl (fun d p => dictSet d p.1 p.2) []) =
      some c := by
    rw [lookupD_foldl_dictSet, h]
  rw [lookupD_fillMissing_present _ _ _ (containsKey_of_lookupD _ _ _ h1)]
  exact h1

/-! ### Normalisation-side lemmas -/

theorem apply_keys (abbrs : List (List Char × List Char)) :
    ∀ (data r : List (String × List Char)), apply_abbreviations data abbrs = .ok r →
      r.map Prod.fst = data.map Prod.fst := by
  intro data
  induction data with
  | nil =>
    intro r h
    simp only [apply_abbreviations] at h
    have : r = [] := by simpa using h.symm
    rw [this]
  | cons p rest ih =>
    intro r h
    obtain ⟨s, c⟩ := p
    simp only [apply_abbreviations] at h
    cases hac : applyContent abbrs c with
    | error e => rw [hac] at h; exact absurd h (by simp)
    | ok c' =>
      rw [hac] at h
      cases har : apply_abbreviations rest abbrs with
      | error e => rw [har] at h; exact absurd h (by simp)
      | ok r' =>
        rw [har] at h
        have hr : r = (s, c') :: r' := by simpa using h.symm
        rw [hr]
        simp [ih r' har]

theorem subWWF_id (term : List Char) (tmpl : List TItem) :
    ∀ (fuel : Nat) (prev : Option Char) (s : List Char),
      occAux term prev s = false → subWWF term tmpl fuel prev s = s := by
  intro fuel
  induction fuel with
  | zero => intro prev s _; rfl
  | succ fuel ih =>
    intro prev s h
    match s with
    | [] =>
      rw [occAux] at h
      simp [subWWF, h]
    | c :: rest =>
      rw [occAux] at h
      have h1 : wordMatchAt prev term (c :: rest) = false := by
        cases hw : wordMatchAt prev term (c :: rest)
        · rfl
        · rw [hw] at h; simp at h
      have h2 : occAux term (some c) rest = false := by
        rw [h1] at h; simpa using h
      rw [subWWF.eq_def]
      simp [h1, ih (some c) rest h2]

theorem applyContent_templates (abbrs : List (List Char × List Char)) :
    ∀ c d, applyContent abbrs c = .ok d →
      ∀ p ∈ abbrs, parseTemplate p.2 ≠ none := by
  induction abbrs with
  | nil => intro c d _ p hp; simp at hp
  | cons q rest ih =>
    intro c d h p hp
    obtain ⟨term, repl⟩ := q
    simp only [applyContent] at h
    cases hpt : parseTemplate repl with
    | none => rw [hpt] at h; exact absurd h (by simp)
    | some tmpl =>
      rw [hpt] at h
      rcases List.mem_cons.mp hp with hp | hp
      · rw [hp]; simp [hpt]
      · exact ih _ _ h p hp

theorem applyContent_id (abbrs : List (List Char × List Char)) :
    ∀ c, (∀ p ∈ abbrs, parseTemplate p.2 ≠ none) →
      (∀ p ∈ abbrs, hasWWOcc p.1 c = false) →
      applyContent abbrs c = .ok c := by
  induction abbrs with
  | nil => intro c _ _; rfl
  | cons q rest ih =>
    intro c ht hocc
    obtain ⟨term, repl⟩ := q
    simp only [applyContent]
    cases hpt : parseTemplate repl with
    | none => exact absurd hpt (by simpa using ht (term, repl) (List.mem_cons_self _ _))
    | some tmpl =>
      have hsub : subWW term tmpl c = c :=
        subWWF_id term tmpl _ none c (hocc (term, repl) (List.mem_cons_self _ _))
      show applyContent rest (subWW term tmpl c) = .ok c
      rw [hsub]
      exact ih c (fun p hp => ht p (List.mem_cons_of_mem _ hp))
        (fun p hp => hocc p (List.mem_cons_of_mem _ hp))

theorem apply_abbreviations_id (abbrs : List (List Char × List Char))
    (ht : ∀ p ∈ abbrs, parseTemplate p.2 ≠ none) :
    ∀ data : List (String × List Char),
      (∀ q ∈ data, ∀ p ∈ abbrs, hasWWOcc p.1 q.2 = false) →
      apply_abbreviations data abbrs = .ok data := by
  intro data
  induction data with
  | nil => intro _; rfl
  | cons q rest ih =>
    intro hocc
    obtain ⟨s, c⟩ := q
    simp only [apply_abbreviations]
    rw [applyContent_id abbrs c ht (fun p hp => hocc (s, c) (List.mem_cons_self _ _) p hp)]
    rw [ih (fun q hq p hp => hocc q (List.mem_cons_of_mem _ hq) p hp)]

theorem apply_abbreviations_mem (abbrs : List (List Char × List Char)) :
    ∀ (data r : List (String × List Char)), apply_abbreviations data abbrs = .ok r →
      ∀ (s : String) (c : List Char), (s, c) ∈ data →
        (∀ p ∈ abbrs, hasWWOcc p.1 c = false) → (s, c) ∈ r := by
  intro data
  induction data with
  | nil => intro r _ s c hm _; simp at hm
  | cons q rest ih =>
    intro r h s c hm hocc
    obtain ⟨s0, c0⟩ := q
    simp only [apply_abbreviations] at h
    cases hac : applyContent abbrs c0 with
    | error e => rw [hac] at h; exact absurd h (by simp)
    | ok c' =>
      rw [hac] at h
      cases har : apply_abbreviations rest abbrs with
      | error e => rw [har] at h; exact absurd h (by simp)
      | ok r' =>
        rw [har] at h
        have hr : r = (s0, c') :: r' := by simpa using h.symm
        subst hr
        rcases List.mem_cons.mp hm with hm | hm
        · have hc : c = c0 := congrArg Prod.snd hm
          have ht := applyContent_templates abbrs c0 c' hac
          have hid : applyContent abbrs c0 = .ok c0 :=
            applyContent_id abbrs c0 ht (hc ▸ hocc)
          have hcc : c' = c0 := by rw [hac] at hid; simpa using hid
          rw [hcc, ← hm]
          exact List.mem_cons_self _ _
        · exact List.mem_cons_of_mem _ (ih r' har s c hm hocc)

theorem applyContent_total (abbrs : List (List Char × List Char)) :
    ∀ c, (∀ p ∈ abbrs, parseTemplate p.2 ≠ none) →
      ∃ d, applyContent abbrs c = .ok d := by
  induction abbrs with
  | nil => intro c _; exact ⟨c, rfl⟩
  | cons q rest ih =>
    intro c ht
    obtain ⟨term, repl⟩ := q
    cases hpt : parseTemplate repl with
    | none => exact absurd hpt (by simpa using ht (term, repl) (List.mem_cons_self _ _))
    | some tmpl =>
      obtain ⟨d, hd⟩ := ih (subWW term tmpl c) (fun p hp => ht p (List.mem_cons_of_mem _ hp))
      exact ⟨d, by simp only [applyContent]; rw [hpt]; exact hd⟩

theorem apply_abbreviations_total (abbrs : List (List Char × List Char))
    (ht : ∀ p ∈ abbrs, parseTemplate p.2 ≠ none) :
    ∀ data : List (String × List Char), ∃ r, apply_abbreviations data abbrs = .ok r := by
  intro data
  induction data with
  | nil => exact ⟨[], rfl⟩
  | cons q rest ih =>
    obtain ⟨s, c⟩ := q
    obtain ⟨d, hd⟩ := applyContent_total abbrs c ht
    obtain ⟨r, hr⟩ := ih
    exact ⟨(s, d) :: r, by simp only [apply_abbreviations]; rw [hd, hr]⟩

theorem parseTemplateF_noBackslash :
    ∀ (fuel : Nat) (repl : List Char), repl.length < fuel → '\\' ∉ repl →
      parseTemplateF fuel repl = some (repl.map TItem.lit) := by
  intro fuel
  induction fuel with
  | zero => intro repl h _; exact absurd h (Nat.not_lt_zero _)
  | succ fuel ih =>
    intro repl hlen hbs
    match repl with
    | [] => rfl
    | c :: rest =>
      have hc : c ≠ '\\' := fun h => hbs (h ▸ List.mem_cons_self _ _)
      rw [parseTemplateF.eq_def]
      simp only [hc, ne_eq, not_false_eq_true, if_true]
      rw [ih rest (by simpa [Nat.succ_lt_succ_iff] using hlen)
        (fun h => hbs (List.mem_cons_of_mem _ h))]
      rfl

theorem parseTemplate_noBackslash (repl : List Char) (hbs : '\\' ∉ repl) :
    parseTemplate repl = some (repl.map TItem.lit) :=
  parseTemplateF_noBackslash (repl.length + 1) repl (Nat.lt_succ_self _) hbs

/-! ### Consecutive-newline lemmas -/

/-- `s` contains two consecutive newline characters. -/
def hasNN : List Char → Bool
  | [] => false
  | [_] => false
  | a :: b :: rest => (a == '\n' && b == '\n') || hasNN (b :: rest)

theorem bor_false {a b : Bool} (h : (a || b) = false) : a = false ∧ b = false := by
  cases a <;> cases b <;> simp_all

theorem hasNN_cons (a : Char) (l : List Char) :
    hasNN (a :: l) =
      ((match l.head? with
        | some b => a == '\n' && b == '\n'
        | none => false) || hasNN l) := by
  cases l <;> rfl

theorem hasNN_of_cons (a : Char) (l : List Char) (h : hasNN (a :: l) = false) :
    hasNN l = false := by
  rw [hasNN_cons] at h
  exact (bor_false h).2

theorem hasNN_drop : ∀ (n : Nat) (l : List Char), hasNN l = false → hasNN (l.drop n) = false := by
  intro n
  induction n with
  | zero => intro l h; exact h
  | succ m ih =>
    intro l h
    cases l with
    | nil => exact h
    | cons a r => exact ih r (hasNN_of_cons a r h)

theorem hasNN_take : ∀ (l : List Char) (n : Nat), hasNN l = false → hasNN (l.take n) = false := by
  intro l
  induction l with
  | nil => intro n _; simp [hasNN]
  | cons a r ih =>
    intro n h
    cases n with
    | zero => rfl
    | succ m =>
      rw [List.take_succ_cons, hasNN_cons]
      have hr : hasNN r = false := hasNN_of_cons a r h
      rw [ih m hr]
      cases hh : (r.take m).head? with
      | none => simp
      | some b =>
        have hrb : r.head? = some b := by
          cases m with
          | zero => simp at hh
          | succ m2 =>
            cases r with
            | nil => simp at hh
            | cons x xs => simpa using hh
        rw [hasNN_cons, hrb] at h
        have hab := (bor_false h).1
        simp only [hh]
        simp at hab ⊢
        exact hab

theorem hasNN_append_left (u t : List Char) (h : hasNN (u ++ t) = false) :
    hasNN u = false := by
  have hu : u = (u ++ t).take u.length := (List.take_left u t).symm
  rw [hu]
  exact hasNN_take _ _ h

theorem hasNN_append_right (u t : List Char) (h : hasNN (t ++ u) = false) :
    hasNN u = false := by
  have hu : u = (t ++ u).drop t.length := (List.drop_left t u).symm
  rw [hu]
  exact hasNN_drop _ _ h

theorem hasNN_dropWhile (p : Char → Bool) (l : List Char) (h : hasNN l = false) :
    hasNN (l.dropWhile p) = false := by
  have := List.takeWhile_append_dropWhile (p := p) (l := l)
  exact hasNN_append_right _ (l.takeWhile p) (by rw [this]; exact h)

theorem dropTrail_pre (p : Char → Bool) : ∀ l : List Char, ∃ t, l = dropTrail p l ++ t := by
  intro l
  induction l with
  | nil => exact ⟨[], rfl⟩
  | cons c r ih =>
    obtain ⟨t, ht⟩ := ih
    cases hd : dropTrail p r with
    | nil =>
      by_cases hp : p c = true
      · exact ⟨c :: r, by simp [dropTrail, hd, hp]⟩
      · refine ⟨r, ?_⟩
        simp [dropTrail, hd, hp]
    | cons x xs =>
      refine ⟨t, ?_⟩
      simp only [dropTrail, hd]
      rw [List.cons_append]
      rw [← hd, ← ht]

theorem hasNN_dropTrail (p : Char → Bool) (l : List Char) (h : hasNN l = false) :
    hasNN (dropTrail p l) = false := by
  obtain ⟨t, ht⟩ := dropTrail_pre p l
  exact hasNN_append_left _ t (by rw [← ht]; exact h)

theorem hasNN_pyStrip (l : List Char) (h : hasNN l = false) :
    hasNN (pyStrip l) = false :=
  hasNN_dropTrail _ _ (hasNN_dropWhile _ _ h)

theorem collapseNL_head_ne : ∀ l : List Char,
    (collapseNL (some '\n') l).head? ≠ some '\n' := by
  intro l
  induction l with
  | nil => simp [collapseNL]
  | cons c r ih =>
    by_cases hc : c = '\n'
    · subst hc
      rw [collapseNL, if_pos ⟨rfl, rfl⟩]
      exact ih
    · rw [collapseNL, if_neg (fun hcp => hc hcp.1)]
      simpa using hc

theorem hasNN_collapseNL : ∀ (l : List Char) (prev : Option Char),
    hasNN (collapseNL prev l) = false := by
  intro l
  induction l with
  | nil => intro prev; rfl
  | cons c r ih =>
    intro prev
    by_cases hcp : c = '\n' ∧ prev = some '\n'
    · rw [collapseNL, if_pos hcp]
      exact ih (some c)
    · rw [collapseNL, if_neg hcp, hasNN_cons, ih (some c)]
      cases hh : (collapseNL (some c) r).head? with
      | none => simp
      | some b =>
        by_cases hc : c = '\n'
        · subst hc
          have hb : b ≠ '\n' := fun he => collapseNL_head_ne r (he ▸ hh)
          simp [hb]
        · simp [hc]

theorem hasNN_stripHdr (alts : List (List Char)) (c : List Char) (h : hasNN c = false) :
    hasNN (stripHdr alts c) = false := by
  induction alts with
  | nil => exact h
  | cons a rest ih =>
    rw [stripHdr]
    by_cases hc : ciStarts a c = true
    · rw [if_pos hc]
      exact hasNN_pyStrip _ (hasNN_drop _ _ h)
    · rw [if_neg hc]
      exact ih

theorem contentsOf_body (text : List Char) (pats : List (String × List (List Char))) :
    ∀ (ms : List (String × Nat)) (s : String) (b : List Char),
      (s, b) ∈ contentsOf text pats ms →
      ∃ st n, b = stripHdr (patsFor pats s) (pyStrip ((text.drop st).take n)) := by
  intro ms
  induction ms with
  | nil => intro s b h; simp [contentsOf] at h
  | cons m rest ih =>
    intro s b h
    obtain ⟨s0, st0⟩ := m
    simp only [contentsOf, List.mem_cons] at h
    rcases h with h | h
    · have hs : s = s0 := congrArg Prod.fst h
      have hb : b = stripHdr (patsFor pats s0)
          (pyStrip ((text.drop st0).take (nextEnd text rest - st0))) :=
        congrArg Prod.snd h
      subst hs
      exact ⟨st0, nextEnd text rest - st0, hb⟩
    · exact ih s b h

theorem parse_sections_body_hasNN (text : List Char) (pats : List (String × List (List Char)))
    (s : String) (b : List Char) (ht : hasNN text = false)
    (hmem : (s, b) ∈ parse_sections text pats) : hasNN b = false := by
  unfold parse_sections at hmem
  rcases mem_fillMissing _ _ _ hmem with h1 | h1
  · rcases mem_foldl_dictSet _ _ _ h1 with h2 | h2
    · simp at h2
    · obtain ⟨st, n, hb⟩ := contentsOf_body text pats _ s b h2
      rw [hb]
      exact hasNN_stripHdr _ _ (hasNN_pyStrip _ (hasNN_take _ _ (hasNN_drop _ _ ht)))
  · have hb : b = "[Missing Data]".data := h1
    rw [hb]
    decide

theorem containsKey_eq_mapfst (d : List (String × α)) (k : String) :
    containsKey d k = (d.map Prod.fst).any (fun x => x = k) := by
  induction d with
  | nil => rfl
  | cons p rest ih =>
    simp only [containsKey, List.any_cons, List.map_cons]
    rw [show (rest.any fun q => decide (q.1 = k)) = containsKey rest k from rfl, ih]

theorem apply_templates (abbrs : List (List Char × List Char)) :
    ∀ (data r : List (String × List Char)), apply_abbreviations data abbrs = .ok r →
      data ≠ [] → ∀ p ∈ abbrs, parseTemplate p.2 ≠ none := by
  intro data r h hne
  match data with
  | [] => exact absurd rfl hne
  | (s, c) :: rest =>
    simp only [apply_abbreviations] at h
    cases hac : applyContent abbrs c with
    | error e => rw [hac] at h; exact absurd h (by simp)
    | ok c' => exact applyContent_templates abbrs c c' hac

/-! ### Claims -/

/-- C1, counterexample: on input `"hello"` (no header matches), the returned
StructuredNote has NO `Uncategorized` entry and no section whose body is the
unmatched text — the unmatched span is dropped, contradicting the claim that
every unclaimed span is collected under `Uncategorized`. -/
theorem C1_counterexample :
    lookupD "Uncategorized" (parse_sections "hello".data sectionPatterns) = none ∧
    ∀ p ∈ parse_sections "hello".data sectionPatterns, p.2 ≠ "hello".data := by
  decide

/-- C1 (amended): header mode never produces an `Uncategorized` section — an
input span claimed by no header match is dropped; in particular, when no
header matches at all, every configured section is `"[Missing Data]"` and the
input text is absent from the result. -/
theorem C1_amended (text : List Char) :
    lookupD "Uncategorized" (parse_sections text sectionPatterns) = none ∧
    (findMatches sectionPatterns text = [] →
      ∀ s : String, (sectionPatterns.any fun p => p.1 = s) = true →
        lookupD s (parse_sections text sectionPatterns) = some "[Missing Data]".data) := by
  refine ⟨parse_sections_lookup_none text sectionPatterns "Uncategorized" (by decide), ?_⟩
  intro hnm s hs
  exact parse_sections_no_match text sectionPatterns s hnm hs

/-- C1 witness: the amended statement evaluated at `"hello"` and section HPI. -/
theorem C1_witness :
    lookupD "Uncategorized" (parse_sections "hello".data sectionPatterns) = none ∧
    lookupD "HPI" (parse_sections "hello".data sectionPatterns) =
      some "[Missing Data]".data :=
  ⟨(C1_amended "hello".data).1,
   (C1_amended "hello".data).2 (by decide) "HPI" (by decide)⟩

/-- C2, counterexample: with two `CC:` blocks (`"CC: a CC: b"`), the Chief
Complaint body is `"b"` alone — the first block's content `"a"` is NOT
retained, contradicting accumulation of every matched block. -/
theorem C2_counterexample :
    lookupD "Chief Complaint" (parse_sections "CC: a CC: b".data sectionPatterns) =
      some "b".data ∧ 'a' ∉ "b".data := by
  decide

/-- C2 (amended): when a section's header matches at several positions, the
section body is the content of the LAST matched block; earlier blocks of the
same section are overwritten, not accumulated. -/
theorem C2_amended (text : List Char) (pats : List (String × List (List Char)))
    (s : String) (c : List Char)
    (h : lastVal s (matchBlocks text pats) = some c) :
    lookupD s (parse_sections text pats) = some c :=
  parse_sections_lastVal text pats s c h

/-- C2 witness: the amended statement evaluated on `"CC: a CC: b"`. -/
theorem C2_witness :
    lookupD "Chief Complaint" (parse_sections "CC: a CC: b".data sectionPatterns) =
      some "b".data :=
  C2_amended "CC: a CC: b".data sectionPatterns "Chief Complaint" "b".data (by decide)

/-- C3, counterexample: on the spec's example input, `ED Vitals` is
`"[Missing Data]"`, not `"BP 140/90, HR 88."` — no `ED Vitals` pattern
(`Triage Vitals:`, `Vital Signs:`, `VS:`) matches the bare `Vitals:` header. -/
theorem C3_counterexample :
    (format_ed_data
        "CC: chest pain. HPI: pain started 2 hours ago. Vitals: BP 140/90, HR 88.".data
        default_abbreviations).toOption.map (lookupD "ED Vitals") =
      some (some "[Missing Data]".data) ∧
    "[Missing Data]".data ≠ "BP 140/90, HR 88.".data := by
  exact ⟨rfl, by decide⟩

/-- C3 (amended): on the example input with the default table, Chief
Complaint = `"chest pain."`; the `Vitals:` text is absorbed into HPI, which
becomes `"pain started 2 hours ago. Vitals: BP 140/90, HR 88."`; every other
configured section, including ED Vitals, is `"[Missing Data]"`. -/
theorem C3_amended :
    format_ed_data
      "CC: chest pain. HPI: pain started 2 hours ago. Vitals: BP 140/90, HR 88.".data
      default_abbreviations =
    .ok [ ("Chief Complaint", "chest pain.".data)
        , ("HPI", "pain started 2 hours ago. Vitals: BP 140/90, HR 88.".data)
        , ("ROS", "[Missing Data]".data)
        , ("ED Vitals", "[Missing Data]".data)
        , ("Physical Exam", "[Missing Data]".data)
        , ("Labs & Imaging", "[Missing Data]".data)
        , ("MDM", "[Missing Data]".data)
        , ("Prior to Admission", "[Missing Data]".data) ] := rfl

/-- C4, counterexample: with the SAME table in the key order
`{infarction ↦ INF, myocardial infarction ↦ MI}`, the output is
`"acute myocardial INF noted"` — exactly the result the claim says can never
occur, so substitution is not longest-term-first. -/
theorem C4_counterexample :
    apply_abbreviations [("S", "acute myocardial infarction noted".data)]
      [("infarction".data, "INF".data), ("myocardial infarction".data, "MI".data)] =
      .ok [("S", "acute myocardial INF noted".data)] ∧
    "acute myocardial INF noted".data ≠ "acute MI noted".data := ⟨rfl, by decide⟩

/-- C4 (amended): terms are applied in table iteration (insertion) order,
not sorted by length: the order `{myocardial infarction ↦ MI, infarction ↦
INF}` yields `"acute MI noted"`, while the reversed key order yields
`"acute myocardial INF noted"`. -/
theorem C4_amended :
    apply_abbreviations [("S", "acute myocardial infarction noted".data)]
      [("myocardial infarction".data, "MI".data), ("infarction".data, "INF".data)] =
      .ok [("S", "acute MI noted".data)] ∧
    apply_abbreviations [("S", "acute myocardial infarction noted".data)]
      [("infarction".data, "INF".data), ("myocardial infarction".data, "MI".data)] =
      .ok [("S", "acute myocardial INF noted".data)] := ⟨rfl, rfl⟩

/-- C5, counterexample: with the table `{x ↦ x y}`, one application maps
`"x"` to `"x y"` and a second application maps `"x y"` to `"x y y"` —
applying `apply_abbreviations` twice differs from applying it once. -/
theorem C5_counterexample :
    apply_abbreviations [("S", "x".data)] [("x".data, "x y".data)] =
      .ok [("S", "x y".data)] ∧
    apply_abbreviations [("S", "x y".data)] [("x".data, "x y".data)] =
      .ok [("S", "x y y".data)] ∧
    ("x y y".data : List Char) ≠ "x y".data := ⟨rfl, rfl, by decide⟩

/-- C5 (amended): normalisation is idempotent exactly on results free of
residual term occurrences: if one application succeeds and no body of the
result still contains a whole-word occurrence of any term, the second
application returns the result unchanged.  (A table whose abbreviation
reintroduces a term, as in the counterexample, breaks idempotence.) -/
theorem C5_amended (data r : List (String × List Char))
    (abbrs : List (List Char × List Char))
    (h : apply_abbreviations data abbrs = .ok r)
    (hocc : ∀ q ∈ r, ∀ p ∈ abbrs, hasWWOcc p.1 q.2 = false) :
    apply_abbreviations r abbrs = .ok r := by
  cases data with
  | nil =>
    have hr : r = [] := by simpa [apply_abbreviations] using h.symm
    rw [hr]; rfl
  | cons q rest =>
    have ht := apply_templates abbrs (q :: rest) r h (by simp)
    exact apply_abbreviations_id abbrs ht r hocc

/-- C5 witness: the amended statement evaluated on `{hypertension ↦ HTN}`. -/
theorem C5_witness :
    apply_abbreviations [("S", "has HTN now".data)]
      [("hypertension".data, "HTN".data)] = .ok [("S", "has HTN now".data)] :=
  C5_amended [("S", "has hypertension now".data)] [("S", "has HTN now".data)]
    [("hypertension".data, "HTN".data)] rfl (by decide)

/-- C6, counterexample: normalisation CAN raise: `re.sub` parses the
replacement string, and an abbreviation value `"\1"` is an invalid group
reference for the zero-group pattern, raising `re.error`. -/
theorem C6_counterexample :
    apply_abbreviations [("S", "x".data)] [("x".data, "\\1".data)] =
      .error "re.error: bad escape or invalid group reference in replacement" := rfl

/-- C6 (amended): section classification is total, and the whole pipeline
completes without raising for every input text provided no abbreviation
value contains a backslash (so every replacement template parses);
an abbreviation value such as `"\1"` raises. -/
theorem C6_amended (text : List Char) (abbrs : List (List Char × List Char))
    (hbs : ∀ p ∈ abbrs, '\\' ∉ p.2) :
    ∃ r, format_ed_data text abbrs = .ok r := by
  have ht : ∀ p ∈ abbrs, parseTemplate p.2 ≠ none := fun p hp => by
    rw [parseTemplate_noBackslash p.2 (hbs p hp)]; simp
  unfold format_ed_data
  by_cases he : pyStrip text = []
  · rw [if_pos he]; exact ⟨_, rfl⟩
  · rw [if_neg he]
    exact apply_abbreviations_total abbrs ht _

/-- C6 witness: the amended statement at a concrete input and the default
table. -/
theorem C6_witness :
    ∃ r, format_ed_data "CC: chest pain".data default_abbreviations = .ok r :=
  C6_amended "CC: chest pain".data default_abbreviations (by decide)

/-- C7: empty or all-whitespace input yields exactly the error dict
`{"Error": "No data provided"}` with no section entries; for input with a
non-whitespace character, any returned note has no `"Error"` entry. -/
theorem C7_empty_input (text : List Char) (abbrs : List (List Char × List Char)) :
    (pyStrip text = [] →
      format_ed_data text abbrs = .ok [("Error", "No data provided".data)]) ∧
    (pyStrip text ≠ [] → ∀ r, format_ed_data text abbrs = .ok r →
      lookupD "Error" r = none) := by
  constructor
  · intro he; unfold format_ed_data; rw [if_pos he]
  · intro he r h
    unfold format_ed_data at h
    rw [if_neg he] at h
    have hkeys := apply_keys abbrs _ r h
    rw [lookupD_eq_none_iff]
    have hck : containsKey
        (parse_sections (collapseNL none (pyStrip text)) sectionPatterns) "Error" = false := by
      by_cases hc : containsKey
          (parse_sections (collapseNL none (pyStrip text)) sectionPatterns) "Error" = true
      · exact absurd (parse_sections_key _ _ _ hc) (by decide)
      · simpa using hc
    rw [containsKey_eq_mapfst, hkeys, ← containsKey_eq_mapfst]
    exact hck

/-- C7 witness: the theorem evaluated at `""` and at `"hi"`. -/
theorem C7_witness :
    format_ed_data "".data default_abbreviations =
      .ok [("Error", "No data provided".data)] ∧
    lookupD "Error"
      ([ ("Chief Complaint", "[Missing Data]".data)
       , ("HPI", "[Missing Data]".data)
       , ("ROS", "[Missing Data]".data)
       , ("ED Vitals", "[Missing Data]".data)
       , ("Physical Exam", "[Missing Data]".data)
       , ("Labs & Imaging", "[Missing Data]".data)
       , ("MDM", "[Missing Data]".data)
       , ("Prior to Admission", "[Missing Data]".data) ] : List (String × List Char)) =
      none :=
  ⟨(C7_empty_input "".data default_abbreviations).1 rfl,
   (C7_empty_input "hi".data default_abbreviations).2 (by decide) _ rfl⟩

/-- C8, counterexample: the upload `"[1, 2]"` is well-formed JSON but not a
string-to-string object; `json.loads` succeeds, so `load_abbreviations`
returns the array itself, NOT the built-in default table. -/
theorem C8_counterexample :
    load_abbreviations "[1, 2]".data defaultAbbrevJ =
      JVal.jarr [JVal.jnum "1".data, JVal.jnum "2".data] ∧
    JVal.jarr [JVal.jnum "1".data, JVal.jnum "2".data] ≠ defaultAbbrevJ :=
  ⟨rfl, fun h => JVal.noConfusion h⟩

/-- C8 (amended): the default table is substituted exactly when decoding
raises (malformed JSON); ANY successfully decoded JSON value — an array, or
an object with non-string values — is returned as is, while a well-formed
string-to-string object is returned as the mapping it denotes. -/
theorem C8_amended (d : JVal) :
    load_abbreviations "[1, 2]".data d =
      JVal.jarr [JVal.jnum "1".data, JVal.jnum "2".data] ∧
    load_abbreviations "[1, 2".data d = d ∧
    load_abbreviations "nonsense".data d = d ∧
    load_abbreviations "\x7b\"a\": \"b\"\x7d".data d =
      JVal.jobj [("a".data, JVal.jstr "b".data)] :=
  ⟨rfl, rfl, rfl, rfl⟩

/-- C9: `apply_abbreviations` only rewrites bodies: the returned mapping has
exactly the input's keys in the input's order, and an entry whose body has no
whole-word occurrence of any term is returned unchanged. -/
theorem C9_frame (data r : List (String × List Char))
    (abbrs : List (List Char × List Char))
    (h : apply_abbreviations data abbrs = .ok r) :
    r.map Prod.fst = data.map Prod.fst ∧
    ∀ (s : String) (c : List Char), (s, c) ∈ data →
      (∀ p ∈ abbrs, hasWWOcc p.1 c = false) → (s, c) ∈ r :=
  ⟨apply_keys abbrs data r h,
   fun s c hm hocc => apply_abbreviations_mem abbrs data r h s c hm hocc⟩

/-- C9 witness: the theorem evaluated on a body free of default terms. -/
theorem C9_witness :
    ([("S", "plain body".data)] : List (String × List Char)).map Prod.fst =
      ([("S", "plain body".data)] : List (String × List Char)).map Prod.fst ∧
    ("S", "plain body".data) ∈ ([("S", "plain body".data)] : List (String × List Char)) := by
  have h := C9_frame [("S", "plain body".data)] [("S", "plain body".data)]
    default_abbreviations rfl
  exact ⟨h.1, h.2 "S" "plain body".data (by decide) (by decide)⟩

/-- C10: section parsing operates on the normalised text (stripped, newline
runs collapsed), so no section body extracted by `parse_sections` contains
two consecutive newline characters — blank lines are not preserved. -/
theorem C10_no_blank_lines (text : List Char) (s : String) (b : List Char)
    (hmem : (s, b) ∈ parse_sections (collapseNL none (pyStrip text)) sectionPatterns) :
    hasNN b = false :=
  parse_sections_body_hasNN _ _ s b (hasNN_collapseNL (pyStrip text) none) hmem

/-- C10 witness: the theorem evaluated on `"CC: a\n\n\nb"`, whose Chief
Complaint body is `"a\nb"`. -/
theorem C10_witness : hasNN "a\nb".data = false :=
  C10_no_blank_lines "CC: a\n\n\nb".data "Chief Complaint" "a\nb".data (by decide)

end EDFmt

